import Mathlib

/-!
Verification of the psychic poker player evaluator.

The definitions below are a shallow embedding of `src/models/cards.py` and
`src/models/hand_processor.py`: `Card` carries the raw two characters of a
card code; `HandProcessor` carries the ten parsed cards (first five = hand,
last five = deck in draw order).  Functions that can raise in Python
(the deck-position lookup `list.index`) return `Option`; assertion-guarded
constructors (`Card.__init__`, `HandProcessor.__init__`) are modelled as
`Option`-returning smart constructors.  Category checks thread the `Option`
through the same loop structure as the Python code, so that an error raised
mid-loop in Python corresponds to `none` here.
-/

/-- A playing card: the raw face character and the raw suit character of its
two-character code, exactly as stored by `Card.__init__`. -/
structure Card where
  face : Char
  suit : Char
deriving DecidableEq, Repr

/-- Valid face symbols, `Card.FACE_VALUES`. -/
def FACE_VALUES : List Char := ['T', 'J', 'Q', 'K', 'A', '2', '3', '4', '5', '6', '7', '8', '9']

/-- Valid suit symbols, `Card.SUIT_VALUES`. -/
def SUIT_VALUES : List Char := ['C', 'D', 'H', 'S']

/-- `Card.FACE_RANKS` as a function on the upper-cased face character. -/
def FACE_RANKS (f : Char) : Nat :=
  if f = 'A' then 1 else if f = 'K' then 13 else if f = 'Q' then 12 else if f = 'J' then 11 else 0

/-- `Card.is_face_card`: alphabetic face other than T. -/
def is_face_card (c : Card) : Bool :=
  c.face.isAlpha && !(c.face.toUpper == 'T')

/-- `Card.is_number_card`: digit face or T. -/
def is_number_card (c : Card) : Bool :=
  c.face.isDigit || (c.face.toUpper == 'T')

/-- `Card.rank`: numeric rank (A=1, 2-9 literal, T=10, J=11, Q=12, K=13). -/
def rank (c : Card) : Nat :=
  if is_face_card c then FACE_RANKS c.face.toUpper
  else if c.face.isDigit then c.face.toNat - '0'.toNat
  else 10

/-- `Card.__init__` on the list of characters of the code: exactly two
characters, valid face symbol, valid suit symbol (case-insensitive checks,
raw characters stored).  Assertion failure is modelled as `none`. -/
def mkCard (tok : List Char) : Option Card :=
  match tok with
  | [f, su] =>
    if f.toUpper ∈ FACE_VALUES then
      if su.toUpper ∈ SUIT_VALUES then some ⟨f, su⟩ else none
    else none
  | _ => none

/-- Helper for `tokenize`: split on whitespace runs, dropping empty pieces,
accumulating the current token in reverse. -/
def splitWsAux : List Char → List Char → List (List Char)
  | [], acc => if acc.isEmpty then [] else [acc.reverse]
  | c :: cs, acc =>
    if c.isWhitespace then
      (if acc.isEmpty then [] else [acc.reverse]) ++ splitWsAux cs []
    else splitWsAux cs (c :: acc)

/-- Python's `str.split()` with no arguments: split on any whitespace runs. -/
def tokenize (s : String) : List (List Char) :=
  splitWsAux s.toList []

/-- The processor state: the ten parsed cards in input order
(`self.hand_n_deck_cards`). -/
structure HandProcessor where
  hand_n_deck_cards : List Card
deriving DecidableEq, Repr

/-- Parse every token into a card; the first invalid token aborts
(the Python list comprehension raises at the first bad `Card(value)`). -/
def mkCards : List (List Char) → Option (List Card)
  | [] => some []
  | t :: ts => (mkCard t).bind (fun c => (mkCards ts).map (fun cs => c :: cs))

/-- `HandProcessor.__init__`: split the input, assert exactly 10 tokens,
assert no duplicate tokens, then parse each token into a `Card`.
Assertion failure is modelled as `none`. -/
def mkHandProcessor (s : String) : Option HandProcessor :=
  let toks := tokenize s
  if toks.length = 10 then
    if toks.Nodup then (mkCards toks).map (fun cs => ⟨cs⟩)
    else none
  else none

/-- `self.hand_cards`: the first five cards. -/
def hand_cards (p : HandProcessor) : List Card := p.hand_n_deck_cards.take 5

/-- `self.deck_cards`: the last five cards, in draw order. -/
def deck_cards (p : HandProcessor) : List Card := p.hand_n_deck_cards.drop 5

/-- One step of the Python dict-of-lists grouping: append `c` to the group
keyed `k`, or create a new group at the end (insertion order). -/
def addToGroups (k : Char) (c : Card) : List (Char × List Card) → List (Char × List Card)
  | [] => [(k, [c])]
  | g :: rest => if g.1 = k then (g.1, g.2 ++ [c]) :: rest else g :: addToGroups k c rest

/-- Grouping by a key function, as an insertion-ordered association list. -/
def group_cards_by (key : Card → Char) (cards : List Card) : List (Char × List Card) :=
  cards.foldl (fun d c => addToGroups (key c) c d) []

/-- `HandProcessor.get_same_suit_cards`. -/
def get_same_suit_cards (cards : List Card) : List (Char × List Card) :=
  group_cards_by Card.suit cards

/-- `HandProcessor.get_same_face_cards`. -/
def get_same_face_cards (cards : List Card) : List (Char × List Card) :=
  group_cards_by Card.face cards

instance : DecidableRel (fun a b : Card => rank a ≤ rank b) :=
  fun a b => Nat.decLe (rank a) (rank b)

instance : DecidableRel (fun a b : Nat => a ≤ b) :=
  fun a b => Nat.decLe a b

/-- `sorted(cards, key=attrgetter('rank'))`: a stable sort by rank. -/
def sortByRank (cards : List Card) : List Card :=
  List.insertionSort (fun a b => rank a ≤ rank b) cards

/-- `sorted([card_.rank for card_ in cc_list])`. -/
def ccRanks (run : List Card) : List Nat :=
  List.insertionSort (fun a b : Nat => a ≤ b) (run.map rank)

/-- The join test of `get_consecutive_cards`: the card's rank is not in the
run and extends the sorted ranks at the bottom or top (`r - 1 == last` is
written `r == last + 1`, identical over the integers). -/
def joinCond (r : Nat) (run : List Card) : Bool :=
  match ccRanks run with
  | [] => false
  | a :: t => !((a :: t).contains r) && ((r + 1 == a) || (r == (a :: t).getLastD 0 + 1))

/-- Try to append the card to the first run satisfying `joinCond`
(`added = True` with `break`); `none` when no run accepts it. -/
def tryAdd (c : Card) : List (List Card) → Option (List (List Card))
  | [] => none
  | run :: rest =>
    if joinCond (rank c) run then some ((run ++ [c]) :: rest)
    else (tryAdd c rest).map (fun rs => run :: rs)

/-- One iteration of the `get_consecutive_cards` outer loop: add to an
existing run or start a new run at the end. -/
def addCard (runs : List (List Card)) (c : Card) : List (List Card) :=
  match tryAdd c runs with
  | some rs => rs
  | none => runs ++ [[c]]

/-- `HandProcessor.get_consecutive_cards`. -/
def get_consecutive_cards (cards : List Card) : List (List Card) :=
  (sortByRank cards).foldl addCard []

/-- `HandProcessor.get_hand_deck_required_cards`: split the required cards
into those (equal to a card) in the 5-card hand and the rest. -/
def get_hand_deck_required_cards (p : HandProcessor) (cards : List Card) :
    List Card × List Card :=
  cards.partition (fun c => decide (c ∈ hand_cards p))

/-- Python `list.index` (first index of an equal element; `none` models the
`ValueError` raised when the element is absent). -/
def index_of_card (c : Card) : List Card → Option Nat
  | [] => none
  | d :: ds => if d == c then some 0 else (index_of_card c ds).map (fun i => i + 1)

/-- The `locations` list of `get_farthest_deck_card_location`: 1-based deck
positions of the required deck cards, `none` if any lookup raises. -/
def collectLocations (deck : List Card) : List Card → Option (List Nat)
  | [] => some []
  | c :: cs =>
    match index_of_card c deck with
    | none => none
    | some i => (collectLocations deck cs).map (fun locs => (i + 1) :: locs)

/-- `HandProcessor.get_farthest_deck_card_location`: max of the 1-based deck
positions, 0 when none are required from the deck. -/
def get_farthest_deck_card_location (p : HandProcessor) (required_deck_cards : List Card) :
    Option Nat :=
  (collectLocations (deck_cards p) required_deck_cards).map (fun locs => locs.foldl Nat.max 0)

/-- `HandProcessor.get_number_of_discardable_hand_cards`: `5 - len(required)`
(kept in `Int`, as Python's subtraction can go negative). -/
def get_number_of_discardable_hand_cards (required_cards : List Card) : Int :=
  5 - (required_cards.length : Int)

/-- `HandProcessor.draw_possibility`: feasible iff the farthest required deck
position does not exceed the discard budget. -/
def draw_possibility (p : HandProcessor) (required_cards : List Card) : Option Bool :=
  let pr := get_hand_deck_required_cards p required_cards
  (get_farthest_deck_card_location p pr.2).map (fun (far : Nat) =>
    if (far : Int) > get_number_of_discardable_hand_cards pr.1 then false else true)

/-- A Python loop that returns `True` at the first success and falls through
to `False`: short-circuiting exists in the `Option` monad. -/
def firstSuccess (f : α → Option Bool) : List α → Option Bool
  | [] => some false
  | x :: xs => (f x).bind (fun b => if b then some true else firstSuccess f xs)

/-- A Python loop that evaluates a call on every element and discards the
results (only its possible error matters). -/
def runAll (f : α → Option Bool) : List α → Option Unit
  | [] => some ()
  | x :: xs => (f x).bind (fun _ => runAll f xs)

/-- The slices `l[i : i + k]` for `i in range(0, len(l) + 1 - k)`. -/
def windows (k : Nat) (l : List α) : List (List α) :=
  (List.range (l.length + 1 - k)).map (fun i => (l.drop i).take k)

/-- `HandProcessor.straight_flush_possible`. -/
def straight_flush_possibleE (p : HandProcessor) : Option Bool :=
  firstSuccess (fun g =>
    if 5 ≤ g.2.length then
      firstSuccess (fun run =>
        if 5 ≤ run.length then
          firstSuccess (fun w => draw_possibility p w) (windows 5 run)
        else some false)
        (get_consecutive_cards g.2)
    else some false)
    (get_same_suit_cards p.hand_n_deck_cards)

/-- `HandProcessor.__times_of_a_kind_possible`. -/
def times_of_a_kind_possibleE (p : HandProcessor) (times : Nat) : Option Bool :=
  firstSuccess (fun g =>
    if g.2.length = times then draw_possibility p g.2 else some false)
    (get_same_face_cards p.hand_n_deck_cards)

/-- `HandProcessor.four_of_a_kind_possible`. -/
def four_of_a_kind_possibleE (p : HandProcessor) : Option Bool :=
  times_of_a_kind_possibleE p 4

/-- `HandProcessor.three_of_a_kind_possible`. -/
def three_of_a_kind_possibleE (p : HandProcessor) : Option Bool :=
  times_of_a_kind_possibleE p 3

/-- `HandProcessor.full_house_possibility`, faithfully including its control
flow: the first inner loop only evaluates `draw_possibility` on every
3-window and discards the results, and after it the Python loop variable
`index` is left at `len(three_set) - 3`, so the second loop always pairs the
2-windows with the LAST 3-window `three_set[len - 3 : len]`. -/
def full_house_possibilityE (p : HandProcessor) : Option Bool :=
  let groups := (get_same_face_cards p.hand_n_deck_cards).map Prod.snd
  let three_sets := groups.filter (fun g => decide (3 ≤ g.length))
  let two_sets := groups.filter (fun g => decide (2 ≤ g.length))
  if three_sets.isEmpty || two_sets.isEmpty then some false
  else
    firstSuccess (fun three_set =>
      (runAll (fun w => draw_possibility p w) (windows 3 three_set)).bind (fun _ =>
        firstSuccess (fun two_set =>
          if two_set == three_set then some false
          else
            firstSuccess (fun w2 =>
              draw_possibility p (w2 ++ (three_set.drop (three_set.length - 3)).take 3))
              (windows 2 two_set))
          two_sets))
      three_sets

/-- `HandProcessor.flush_possibility`: note the suit group is used in
insertion order (order of appearance among the 10 cards), not rank order. -/
def flush_possibilityE (p : HandProcessor) : Option Bool :=
  firstSuccess (fun g =>
    if 5 ≤ g.2.length then
      firstSuccess (fun w => draw_possibility p w) (windows 5 g.2)
    else some false)
    (get_same_suit_cards p.hand_n_deck_cards)

/-- `HandProcessor.straight_possible`. -/
def straight_possibleE (p : HandProcessor) : Option Bool :=
  firstSuccess (fun run =>
    if 5 ≤ run.length then
      firstSuccess (fun w => draw_possibility p w) (windows 5 run)
    else some false)
    (get_consecutive_cards p.hand_n_deck_cards)

/-- The greedy accumulation loop of `HandProcessor.__pair_possibility`:
accept each pair set that is still drawable together with all previously
accepted ones. -/
def accumulate_pairs (p : HandProcessor) :
    List (List Card) → List (List Card) → Option (List (List Card))
  | [], acc => some acc
  | ps :: rest, acc =>
    (draw_possibility p (ps ++ acc.flatten)).bind (fun b =>
      accumulate_pairs p rest (if b then acc ++ [ps] else acc))

/-- `HandProcessor.__pair_possibility`. -/
def pair_possibilityE (p : HandProcessor) (no_of_pairs : Nat) : Option Bool :=
  let pair_sets := ((get_same_face_cards p.hand_n_deck_cards).map Prod.snd).filter
    (fun g => decide (g.length = 2))
  if pair_sets.length < no_of_pairs then some false
  else (accumulate_pairs p pair_sets []).map (fun dps => decide (no_of_pairs ≤ dps.length))

/-- `HandProcessor.one_pair_possibility`. -/
def one_pair_possibilityE (p : HandProcessor) : Option Bool := pair_possibilityE p 1

/-- `HandProcessor.two_pair_possibility`. -/
def two_pair_possibilityE (p : HandProcessor) : Option Bool := pair_possibilityE p 2

/-- `HandProcessor.best_hand_possible`: the if/elif chain, evaluating each
category check lazily in precedence order. -/
def best_hand_possibleE (p : HandProcessor) : Option String :=
  (straight_flush_possibleE p).bind (fun b => if b then some "Straight Flush" else
  (four_of_a_kind_possibleE p).bind (fun b => if b then some "Four Of A Kind" else
  (full_house_possibilityE p).bind (fun b => if b then some "Full House" else
  (flush_possibilityE p).bind (fun b => if b then some "Flush" else
  (straight_possibleE p).bind (fun b => if b then some "Straight" else
  (three_of_a_kind_possibleE p).bind (fun b => if b then some "Three Of A Kind" else
  (two_pair_possibilityE p).bind (fun b => if b then some "Two Pair" else
  (one_pair_possibilityE p).bind (fun b => if b then some "One Pair" else
  some "Highest Card"))))))))

/-! ### Claim-side definitions

The definitions below restate parts of the specification in its own words,
for comparison with the embedded code. -/

/-- The nine category names, in the precedence order of the specification. -/
def categoryNames : List String :=
  ["Straight Flush", "Four Of A Kind", "Full House", "Flush", "Straight",
   "Three Of A Kind", "Two Pair", "One Pair", "Highest Card"]

/-- The eight non-default category checks with their names, in precedence
order. -/
def category_results (p : HandProcessor) : List (String × Option Bool) :=
  [("Straight Flush", straight_flush_possibleE p),
   ("Four Of A Kind", four_of_a_kind_possibleE p),
   ("Full House", full_house_possibilityE p),
   ("Flush", flush_possibilityE p),
   ("Straight", straight_possibleE p),
   ("Three Of A Kind", three_of_a_kind_possibleE p),
   ("Two Pair", two_pair_possibilityE p),
   ("One Pair", one_pair_possibilityE p)]

/-- The name of the first category in precedence order whose feasibility
check holds, with the default `Highest Card`. -/
def firstFeasibleName (p : HandProcessor) : String :=
  match (category_results p).find? (fun nc => nc.2 == some true) with
  | some nc => nc.1
  | none => "Highest Card"

/-- 1-based position of a card within the deck sequence (0 when absent;
only used under the hypothesis that the card is in the deck). -/
def deckPositionOf (deck : List Card) (c : Card) : Nat :=
  match index_of_card c deck with
  | some i => i + 1
  | none => 0

/-- Spec-side farthest deck position: the maximum 1-based deck position
among the required cards not in the hand, 0 if none. -/
def farthestSpec (p : HandProcessor) (r : List Card) : Nat :=
  ((r.filter (fun c => !decide (c ∈ hand_cards p))).map (deckPositionOf (deck_cards p))).foldl
    Nat.max 0

/-- Spec-side discard budget: 5 minus the number of required cards that are
in the original 5-card hand. -/
def discardBudgetSpec (p : HandProcessor) (r : List Card) : Int :=
  5 - ((r.filter (fun c => decide (c ∈ hand_cards p))).length : Int)

/-- Spec-side validity of one card code token: exactly two characters, a
valid face symbol and a valid suit symbol (case-insensitively). -/
def validCode (t : List Char) : Prop :=
  ∃ f su, t = [f, su] ∧ f.toUpper ∈ FACE_VALUES ∧ su.toUpper ∈ SUIT_VALUES

/-- Spec-side validity of the whole input: exactly 10 tokens, no duplicated
cards, every token a valid code. -/
def validInput (s : String) : Prop :=
  (tokenize s).length = 10 ∧ (tokenize s).Nodup ∧ ∀ t ∈ tokenize s, validCode t

/-- The flush check as claim C5 words it: some suit group of at least five
cards has a drawable length-5 contiguous window when the group is taken in
rank order. -/
def flush_rank_order_spec (p : HandProcessor) : Bool :=
  (get_same_suit_cards p.hand_n_deck_cards).any (fun g =>
    decide (5 ≤ g.2.length) &&
    (windows 5 (sortByRank g.2)).any (fun w => draw_possibility p w == some true))

/-- The ten cards of the input `TH JH QC QD QS QH KH AH 2S 6S`. -/
def hp3 : HandProcessor :=
  ⟨[⟨'T','H'⟩, ⟨'J','H'⟩, ⟨'Q','C'⟩, ⟨'Q','D'⟩, ⟨'Q','S'⟩,
    ⟨'Q','H'⟩, ⟨'K','H'⟩, ⟨'A','H'⟩, ⟨'2','S'⟩, ⟨'6','S'⟩]⟩

/-- The ten cards of the input `QC QD QS KH KS 2H 3H 4D 5D QH`. -/
def hp4 : HandProcessor :=
  ⟨[⟨'Q','C'⟩, ⟨'Q','D'⟩, ⟨'Q','S'⟩, ⟨'K','H'⟩, ⟨'K','S'⟩,
    ⟨'2','H'⟩, ⟨'3','H'⟩, ⟨'4','D'⟩, ⟨'5','D'⟩, ⟨'Q','H'⟩]⟩

/-- The ten cards of the input `2H 3H 5H 2C 3C 6H 7H 2D 3D 4H`. -/
def hp5 : HandProcessor :=
  ⟨[⟨'2','H'⟩, ⟨'3','H'⟩, ⟨'5','H'⟩, ⟨'2','C'⟩, ⟨'3','C'⟩,
    ⟨'6','H'⟩, ⟨'7','H'⟩, ⟨'2','D'⟩, ⟨'3','D'⟩, ⟨'4','H'⟩]⟩

/-! ### Helper lemmas: the draw machinery -/

theorem index_of_card_isSome {c : Card} {l : List Card} (h : c ∈ l) :
    (index_of_card c l).isSome := by
  induction l with
  | nil => cases h
  | cons d ds ih =>
    by_cases hd : (d == c)
    · simp [index_of_card, hd]
    · rcases List.mem_cons.mp h with h1 | h1
      · exact absurd h1.symm (by simpa using hd)
      · obtain ⟨i, hi⟩ := Option.isSome_iff_exists.mp (ih h1)
        simp [index_of_card, hd, hi]

theorem collectLocations_eq {deck : List Card} {l : List Card} (h : ∀ c ∈ l, c ∈ deck) :
    collectLocations deck l = some (l.map (deckPositionOf deck)) := by
  induction l with
  | nil => simp [collectLocations]
  | cons c cs ih =>
    obtain ⟨i, hi⟩ := Option.isSome_iff_exists.mp (index_of_card_isSome (h c (by simp)))
    have ihh := ih (fun x hx => h x (by simp [hx]))
    simp [collectLocations, hi, ihh, deckPositionOf]

theorem mem_deck_of_not_hand {p : HandProcessor} {c : Card}
    (h : c ∈ p.hand_n_deck_cards) (hh : c ∉ hand_cards p) : c ∈ deck_cards p := by
  rw [← List.take_append_drop 5 p.hand_n_deck_cards] at h
  rcases List.mem_append.mp h with h1 | h1
  · exact absurd h1 hh
  · exact h1

theorem draw_possibility_eq {p : HandProcessor} {r : List Card}
    (h : ∀ c ∈ r, c ∈ p.hand_n_deck_cards) :
    draw_possibility p r =
      some (if (farthestSpec p r : Int) > discardBudgetSpec p r then false else true) := by
  have hsub : ∀ c ∈ r.filter (not ∘ fun c => decide (c ∈ hand_cards p)), c ∈ deck_cards p := by
    intro c hc
    rw [List.mem_filter] at hc
    refine mem_deck_of_not_hand (h c hc.1) ?hnh
    have h2 := hc.2
    simp only [Function.comp_apply, Bool.not_eq_true', decide_eq_false_iff_not] at h2
    exact h2
  simp only [draw_possibility, get_hand_deck_required_cards, get_farthest_deck_card_location,
    List.partition_eq_filter_filter, collectLocations_eq hsub, Option.map_some',
    farthestSpec, discardBudgetSpec, get_number_of_discardable_hand_cards]
  simp [Function.comp_def]

theorem draw_isSome {p : HandProcessor} {r : List Card}
    (h : ∀ c ∈ r, c ∈ p.hand_n_deck_cards) : (draw_possibility p r).isSome := by
  rw [draw_possibility_eq h]
  simp

theorem draw_eq_true_iff {p : HandProcessor} {r : List Card}
    (h : ∀ c ∈ r, c ∈ p.hand_n_deck_cards) :
    draw_possibility p r = some true ↔ (farthestSpec p r : Int) ≤ discardBudgetSpec p r := by
  rw [draw_possibility_eq h]
  constructor
  · intro he
    by_contra hgt
    simp [if_pos (lt_of_not_ge hgt)] at he
  · intro hle
    simp [if_neg (not_lt_of_ge hle)]

/-! ### Helper lemmas: loop combinators -/

theorem firstSuccess_isSome {α : Type} {f : α → Option Bool} {l : List α}
    (h : ∀ x ∈ l, (f x).isSome) : (firstSuccess f l).isSome := by
  induction l with
  | nil => simp [firstSuccess]
  | cons x xs ih =>
    obtain ⟨b, hb⟩ := Option.isSome_iff_exists.mp (h x (by simp))
    have ihh := ih (fun y hy => h y (by simp [hy]))
    cases b <;> simp [firstSuccess, hb, ihh]

theorem firstSuccess_eq_true_iff {α : Type} {f : α → Option Bool} {l : List α}
    (h : ∀ x ∈ l, (f x).isSome) :
    firstSuccess f l = some true ↔ ∃ x ∈ l, f x = some true := by
  induction l with
  | nil => simp [firstSuccess]
  | cons x xs ih =>
    obtain ⟨b, hb⟩ := Option.isSome_iff_exists.mp (h x (by simp))
    have ihh := ih (fun y hy => h y (by simp [hy]))
    cases b
    · simp [firstSuccess, hb, ihh]
    · exact iff_of_true (by simp [firstSuccess, hb]) ⟨x, by simp, hb⟩

theorem runAll_isSome {α : Type} {f : α → Option Bool} {l : List α}
    (h : ∀ x ∈ l, (f x).isSome) : (runAll f l).isSome := by
  induction l with
  | nil => simp [runAll]
  | cons x xs ih =>
    obtain ⟨b, hb⟩ := Option.isSome_iff_exists.mp (h x (by simp))
    have ihh := ih (fun y hy => h y (by simp [hy]))
    simp [runAll, hb, ihh]

/-! ### Helper lemmas: the grouping primitives only regroup the input -/

theorem addToGroups_mem {k : Char} {c : Card} {gs : List (Char × List Card)}
    {g : Char × List Card} (hg : g ∈ addToGroups k c gs) :
    ∀ x ∈ g.2, (∃ g2 ∈ gs, x ∈ g2.2) ∨ x = c := by
  induction gs with
  | nil =>
    intro x hx
    simp [addToGroups] at hg
    subst hg
    simp at hx
    exact Or.inr hx
  | cons g0 rest ih =>
    intro x hx
    by_cases hk : g0.1 = k
    · simp [addToGroups, hk] at hg
      rcases hg with hg | hg
      · subst hg
        simp at hx
        rcases hx with hx | hx
        · exact Or.inl ⟨g0, by simp, hx⟩
        · exact Or.inr hx
      · exact Or.inl ⟨g, by simp [hg], hx⟩
    · simp [addToGroups, hk] at hg
      rcases hg with hg | hg
      · subst hg
        exact Or.inl ⟨g, by simp, hx⟩
      · rcases ih hg x hx with ⟨g2, hg2, hxg⟩ | hx2
        · exact Or.inl ⟨g2, by simp [hg2], hxg⟩
        · exact Or.inr hx2

theorem group_cards_by_aux {key : Card → Char} {P : Card → Prop} :
    ∀ (l : List Card) (acc : List (Char × List Card)),
      (∀ g ∈ acc, ∀ x ∈ g.2, P x) → (∀ c ∈ l, P c) →
      ∀ g ∈ l.foldl (fun d c => addToGroups (key c) c d) acc, ∀ x ∈ g.2, P x := by
  intro l
  induction l with
  | nil => intro acc hacc _ g hg; exact hacc g hg
  | cons c cs ih =>
    intro acc hacc hl g hg
    refine ih (addToGroups (key c) c acc) ?hstep (fun y hy => hl y (by simp [hy])) g hg
    intro g2 hg2 x hx
    rcases addToGroups_mem hg2 x hx with ⟨g3, hg3, hxg⟩ | hx2
    · exact hacc g3 hg3 x hxg
    · subst hx2
      exact hl x (by simp)

theorem group_cards_by_sub {key : Card → Char} {cards : List Card}
    {g : Char × List Card} (hg : g ∈ group_cards_by key cards) : ∀ x ∈ g.2, x ∈ cards := by
  exact group_cards_by_aux cards [] (by simp) (fun c hc => hc) g hg

theorem get_same_suit_cards_sub {cards : List Card} {g : Char × List Card}
    (hg : g ∈ get_same_suit_cards cards) : ∀ x ∈ g.2, x ∈ cards :=
  group_cards_by_sub hg

theorem get_same_face_cards_sub {cards : List Card} {g : Char × List Card}
    (hg : g ∈ get_same_face_cards cards) : ∀ x ∈ g.2, x ∈ cards :=
  group_cards_by_sub hg

theorem windows_sub {α : Type} {k : Nat} {l w : List α} (h : w ∈ windows k l) : ∀ x ∈ w, x ∈ l := by
  simp only [windows, List.mem_map] at h
  obtain ⟨i, _, rfl⟩ := h
  intro x hx
  exact List.drop_subset i l (List.take_subset k _ hx)

/-! ### Helper lemmas: consecutive runs -/

theorem getLastD_range' : ∀ (n a d : Nat), ((a :: List.range' (a + 1) n).getLastD d) = a + n
  | 0, _, _ => rfl
  | n + 1, a, d => by
    rw [List.range'_succ, List.getLastD_cons, getLastD_range' n (a + 1) a]
    omega

theorem ccRanks_eq {run : List Card} {a : Nat}
    (h : (run.map rank).Perm (List.range' a run.length)) :
    ccRanks run = List.range' a run.length := by
  have hs1 : List.Sorted (fun a b : Nat => a ≤ b) (ccRanks run) :=
    List.sorted_insertionSort _ _
  have hs2 : List.Sorted (fun a b : Nat => a ≤ b) (List.range' a run.length) :=
    List.pairwise_le_range' a run.length
  exact List.eq_of_perm_of_sorted ((List.perm_insertionSort _ _).trans h) hs1 hs2

theorem joinCond_extend {run : List Card} {c : Card} {a : Nat}
    (h : (run.map rank).Perm (List.range' a run.length))
    (hj : joinCond (rank c) run = true) :
    ∃ b, ((run ++ [c]).map rank).Perm (List.range' b (run.length + 1)) := by
  have hcc := ccRanks_eq h
  cases hn : run.length with
  | zero =>
    rw [hn] at hcc
    rw [joinCond, hcc] at hj
    have hf : false = true := hj
    cases hf
  | succ n =>
    rw [hn] at h hcc
    rw [List.range'_succ] at hcc
    have hj2 : (!((a :: List.range' (a + 1) n).contains (rank c)) &&
        ((rank c + 1 == a) || (rank c == (a :: List.range' (a + 1) n).getLastD 0 + 1))) = true := by
      rw [joinCond, hcc] at hj
      exact hj
    rw [getLastD_range'] at hj2
    simp only [Bool.and_eq_true, Bool.or_eq_true, beq_iff_eq] at hj2
    have hmap : (run ++ [c]).map rank = run.map rank ++ [rank c] := by simp
    rw [hmap]
    have hperm1 : (run.map rank ++ [rank c]).Perm (rank c :: run.map rank) :=
      List.perm_append_singleton _ _
    rcases hj2.2 with hc1 | hc2
    · refine ⟨rank c, ?_⟩
      have hr : List.range' (rank c) (n + 1 + 1) = rank c :: List.range' a (n + 1) := by
        rw [List.range'_succ, hc1]
      rw [hr]
      exact hperm1.trans (h.cons _)
    · refine ⟨a, ?_⟩
      rw [List.range'_1_concat]
      refine List.Perm.append h ?_
      have he : rank c = a + (n + 1) := by omega
      rw [he]

theorem tryAdd_flatten {c : Card} : ∀ {runs rs : List (List Card)},
    tryAdd c runs = some rs → rs.flatten.Perm (c :: runs.flatten) := by
  intro runs
  induction runs with
  | nil => intro rs h; cases h
  | cons run rest ih =>
    intro rs h
    by_cases hj : joinCond (rank c) run
    · rw [tryAdd, if_pos hj] at h
      cases h
      simp only [List.flatten_cons, List.append_assoc]
      exact List.perm_middle
    · rw [tryAdd, if_neg hj] at h
      cases htr : tryAdd c rest with
      | none => rw [htr] at h; cases h
      | some rs2 =>
        rw [htr, Option.map_some'] at h
        cases h
        simp only [List.flatten_cons]
        exact (List.Perm.append_left run (ih htr)).trans List.perm_middle

theorem tryAdd_runs {c : Card} : ∀ {runs rs : List (List Card)},
    tryAdd c runs = some rs →
    ∀ r ∈ rs, r ∈ runs ∨ ∃ run ∈ runs, joinCond (rank c) run = true ∧ r = run ++ [c] := by
  intro runs
  induction runs with
  | nil => intro rs h; cases h
  | cons run rest ih =>
    intro rs h r hr
    by_cases hj : joinCond (rank c) run
    · rw [tryAdd, if_pos hj] at h
      cases h
      rcases List.mem_cons.mp hr with hr | hr
      · exact Or.inr ⟨run, by simp, hj, hr⟩
      · exact Or.inl (by simp [hr])
    · rw [tryAdd, if_neg hj] at h
      cases htr : tryAdd c rest with
      | none => rw [htr] at h; cases h
      | some rs2 =>
        rw [htr, Option.map_some'] at h
        cases h
        rcases List.mem_cons.mp hr with hr | hr
        · exact Or.inl (by simp [hr])
        · rcases ih htr r hr with hr2 | ⟨run2, hrun2, hj2, he2⟩
          · exact Or.inl (by simp [hr2])
          · exact Or.inr ⟨run2, by simp [hrun2], hj2, he2⟩

theorem foldl_addCard_spec : ∀ (l : List Card) (runs : List (List Card)),
    (∀ r ∈ runs, ∃ a, (r.map rank).Perm (List.range' a r.length)) →
    (l.foldl addCard runs).flatten.Perm (runs.flatten ++ l) ∧
    (∀ r ∈ l.foldl addCard runs, ∃ a, (r.map rank).Perm (List.range' a r.length)) := by
  intro l
  induction l with
  | nil => intro runs h; exact ⟨by simp, h⟩
  | cons c cs ih =>
    intro runs h
    rw [List.foldl_cons]
    cases hadd : tryAdd c runs with
    | none =>
      have heq : addCard runs c = runs ++ [[c]] := by rw [addCard, hadd]
      rw [heq]
      have hgood : ∀ r ∈ runs ++ [[c]], ∃ a, (r.map rank).Perm (List.range' a r.length) := by
        intro r hr
        rcases List.mem_append.mp hr with hr | hr
        · exact h r hr
        · simp only [List.mem_singleton] at hr
          subst hr
          exact ⟨rank c, by simp [List.range']⟩
      obtain ⟨hperm, hg⟩ := ih (runs ++ [[c]]) hgood
      refine ⟨hperm.trans ?_, hg⟩
      rw [List.flatten_append]
      simp [List.append_assoc]
    | some rs =>
      have heq : addCard runs c = rs := by rw [addCard, hadd]
      rw [heq]
      have hgood : ∀ r ∈ rs, ∃ a, (r.map rank).Perm (List.range' a r.length) := by
        intro r hr
        rcases tryAdd_runs hadd r hr with hr2 | ⟨run, hrun, hjoin, he⟩
        · exact h r hr2
        · subst he
          obtain ⟨a, ha⟩ := h run hrun
          obtain ⟨b, hb⟩ := joinCond_extend ha hjoin
          exact ⟨b, by simpa using hb⟩
      obtain ⟨hperm, hg⟩ := ih rs hgood
      refine ⟨hperm.trans ?_, hg⟩
      exact (List.Perm.append_right cs (tryAdd_flatten hadd)).trans List.perm_middle.symm

theorem consecutive_flatten_perm (cards : List Card) :
    (get_consecutive_cards cards).flatten.Perm cards := by
  have h := (foldl_addCard_spec (sortByRank cards) [] (by simp)).1
  refine h.trans ?_
  simpa using List.perm_insertionSort (fun a b => rank a ≤ rank b) cards

theorem consecutive_runs_good (cards : List Card) :
    ∀ run ∈ get_consecutive_cards cards,
      ∃ a, (run.map rank).Perm (List.range' a run.length) :=
  (foldl_addCard_spec (sortByRank cards) [] (by simp)).2

theorem consecutive_sub {cards run : List Card} (h : run ∈ get_consecutive_cards cards) :
    ∀ x ∈ run, x ∈ cards := by
  intro x hx
  exact (consecutive_flatten_perm cards).mem_iff.mp (List.mem_flatten_of_mem h hx)

/-! ### Helper lemmas: every category check is defined (never raises) -/

theorem straight_flush_isSome (p : HandProcessor) : (straight_flush_possibleE p).isSome := by
  refine firstSuccess_isSome ?hg
  intro g hg
  by_cases h5 : 5 ≤ g.2.length
  · rw [if_pos h5]
    refine firstSuccess_isSome ?hr
    intro run hrun
    by_cases h5r : 5 ≤ run.length
    · rw [if_pos h5r]
      refine firstSuccess_isSome ?hw
      intro w hw
      refine draw_isSome ?hsub
      intro c hc
      exact get_same_suit_cards_sub hg c (consecutive_sub hrun c (windows_sub hw c hc))
    · rw [if_neg h5r]; rfl
  · rw [if_neg h5]; rfl

theorem times_of_a_kind_isSome (p : HandProcessor) (times : Nat) :
    (times_of_a_kind_possibleE p times).isSome := by
  refine firstSuccess_isSome ?hg
  intro g hg
  by_cases ht : g.2.length = times
  · rw [if_pos ht]
    refine draw_isSome ?hsub
    intro c hc
    exact get_same_face_cards_sub hg c hc
  · rw [if_neg ht]; rfl

theorem face_groups_sub {p : HandProcessor} {g : List Card}
    (hg : g ∈ (get_same_face_cards p.hand_n_deck_cards).map Prod.snd) :
    ∀ c ∈ g, c ∈ p.hand_n_deck_cards := by
  rw [List.mem_map] at hg
  obtain ⟨g2, hg2, rfl⟩ := hg
  exact get_same_face_cards_sub hg2

theorem full_house_isSome (p : HandProcessor) : (full_house_possibilityE p).isSome := by
  rw [full_house_possibilityE]
  by_cases he : (((get_same_face_cards p.hand_n_deck_cards).map Prod.snd).filter
      (fun g => decide (3 ≤ g.length))).isEmpty ||
      (((get_same_face_cards p.hand_n_deck_cards).map Prod.snd).filter
      (fun g => decide (2 ≤ g.length))).isEmpty
  · rw [if_pos he]; rfl
  · rw [if_neg he]
    refine firstSuccess_isSome ?h3
    intro three_set h3s
    rw [List.mem_filter] at h3s
    have h3sub : ∀ c ∈ three_set, c ∈ p.hand_n_deck_cards := face_groups_sub h3s.1
    have hrun : (runAll (fun w => draw_possibility p w) (windows 3 three_set)).isSome := by
      refine runAll_isSome ?hw
      intro w hw
      exact draw_isSome (fun c hc => h3sub c (windows_sub hw c hc))
    obtain ⟨u, hu⟩ := Option.isSome_iff_exists.mp hrun
    rw [hu, Option.some_bind]
    refine firstSuccess_isSome ?h2
    intro two_set h2s
    rw [List.mem_filter] at h2s
    have h2sub : ∀ c ∈ two_set, c ∈ p.hand_n_deck_cards := face_groups_sub h2s.1
    by_cases heq : (two_set == three_set)
    · rw [if_pos heq]; rfl
    · rw [if_neg heq]
      refine firstSuccess_isSome ?hw2
      intro w2 hw2
      refine draw_isSome ?hsub
      intro c hc
      rcases List.mem_append.mp hc with hc | hc
      · exact h2sub c (windows_sub hw2 c hc)
      · exact h3sub c (List.drop_subset _ _ (List.take_subset _ _ hc))

theorem flush_isSome (p : HandProcessor) : (flush_possibilityE p).isSome := by
  refine firstSuccess_isSome ?hg
  intro g hg
  by_cases h5 : 5 ≤ g.2.length
  · rw [if_pos h5]
    refine firstSuccess_isSome ?hw
    intro w hw
    exact draw_isSome (fun c hc => get_same_suit_cards_sub hg c (windows_sub hw c hc))
  · rw [if_neg h5]; rfl

theorem straight_isSome (p : HandProcessor) : (straight_possibleE p).isSome := by
  refine firstSuccess_isSome ?hr
  intro run hrun
  by_cases h5 : 5 ≤ run.length
  · rw [if_pos h5]
    refine firstSuccess_isSome ?hw
    intro w hw
    exact draw_isSome (fun c hc => consecutive_sub hrun c (windows_sub hw c hc))
  · rw [if_neg h5]; rfl

theorem accumulate_pairs_isSome {p : HandProcessor} :
    ∀ (sets acc : List (List Card)),
      (∀ g ∈ sets, ∀ c ∈ g, c ∈ p.hand_n_deck_cards) →
      (∀ g ∈ acc, ∀ c ∈ g, c ∈ p.hand_n_deck_cards) →
      (accumulate_pairs p sets acc).isSome := by
  intro sets
  induction sets with
  | nil => intro acc _ _; simp [accumulate_pairs]
  | cons ps rest ih =>
    intro acc hsets hacc
    have hdraw : (draw_possibility p (ps ++ acc.flatten)).isSome := by
      refine draw_isSome ?hsub
      intro c hc
      rcases List.mem_append.mp hc with hc | hc
      · exact hsets ps (by simp) c hc
      · rw [List.mem_flatten] at hc
        obtain ⟨g, hg, hcg⟩ := hc
        exact hacc g hg c hcg
    obtain ⟨b, hb⟩ := Option.isSome_iff_exists.mp hdraw
    rw [accumulate_pairs, hb, Option.some_bind]
    have hsets2 : ∀ g ∈ rest, ∀ c ∈ g, c ∈ p.hand_n_deck_cards :=
      fun g hg => hsets g (by simp [hg])
    cases b
    · exact ih _ hsets2 hacc
    · refine ih _ hsets2 ?hacc2
      intro g hg
      rw [if_pos rfl, List.mem_append] at hg
      rcases hg with hg | hg
      · exact hacc g hg
      · simp only [List.mem_singleton] at hg
        subst hg
        exact hsets g (by simp)

theorem pair_possibility_isSome (p : HandProcessor) (n : Nat) :
    (pair_possibilityE p n).isSome := by
  rw [pair_possibilityE]
  by_cases hlt : (((get_same_face_cards p.hand_n_deck_cards).map Prod.snd).filter
      (fun g => decide (g.length = 2))).length < n
  · rw [if_pos hlt]; rfl
  · rw [if_neg hlt]
    have hs : ∀ g ∈ ((get_same_face_cards p.hand_n_deck_cards).map Prod.snd).filter
        (fun g => decide (g.length = 2)), ∀ c ∈ g, c ∈ p.hand_n_deck_cards := by
      intro g hg
      rw [List.mem_filter] at hg
      exact face_groups_sub hg.1
    obtain ⟨dps, hdps⟩ :=
      Option.isSome_iff_exists.mp (accumulate_pairs_isSome _ [] hs (by simp))
    rw [hdps]
    rfl

theorem best_hand_isSome (p : HandProcessor) : (best_hand_possibleE p).isSome := by
  obtain ⟨b1, h1⟩ := Option.isSome_iff_exists.mp (straight_flush_isSome p)
  obtain ⟨b2, h2⟩ := Option.isSome_iff_exists.mp (times_of_a_kind_isSome p 4)
  obtain ⟨b3, h3⟩ := Option.isSome_iff_exists.mp (full_house_isSome p)
  obtain ⟨b4, h4⟩ := Option.isSome_iff_exists.mp (flush_isSome p)
  obtain ⟨b5, h5⟩ := Option.isSome_iff_exists.mp (straight_isSome p)
  obtain ⟨b6, h6⟩ := Option.isSome_iff_exists.mp (times_of_a_kind_isSome p 3)
  obtain ⟨b7, h7⟩ := Option.isSome_iff_exists.mp (pair_possibility_isSome p 2)
  obtain ⟨b8, h8⟩ := Option.isSome_iff_exists.mp (pair_possibility_isSome p 1)
  rw [best_hand_possibleE, four_of_a_kind_possibleE, three_of_a_kind_possibleE,
    two_pair_possibilityE, one_pair_possibilityE, h1, h2, h3, h4, h5, h6, h7, h8]
  cases b1 <;> cases b2 <;> cases b3 <;> cases b4 <;> cases b5 <;> cases b6 <;>
    cases b7 <;> cases b8 <;> rfl

/-! ### Helper lemmas: monotonicity ingredients -/

theorem foldl_max_init : ∀ (l : List Nat) (a : Nat), a ≤ l.foldl Nat.max a := by
  intro l
  induction l with
  | nil => intro a; exact Nat.le_refl a
  | cons y ys ih =>
    intro a
    rw [List.foldl_cons]
    exact Nat.le_trans (Nat.le_max_left a y) (ih (Nat.max a y))

theorem le_foldl_max {l : List Nat} : ∀ {a x : Nat}, x ∈ l → x ≤ l.foldl Nat.max a := by
  induction l with
  | nil => intro a x h; cases h
  | cons y ys ih =>
    intro a x h
    rw [List.foldl_cons]
    rcases List.mem_cons.mp h with h | h
    · subst h
      exact Nat.le_trans (Nat.le_max_right a x) (foldl_max_init ys (Nat.max a x))
    · exact ih h

theorem foldl_max_le {l : List Nat} : ∀ {a b : Nat}, a ≤ b → (∀ x ∈ l, x ≤ b) →
    l.foldl Nat.max a ≤ b := by
  induction l with
  | nil => intro a b ha _; exact ha
  | cons y ys ih =>
    intro a b ha hl
    rw [List.foldl_cons]
    exact ih (Nat.max_le.mpr ⟨ha, hl y (by simp)⟩) (fun x hx => hl x (by simp [hx]))

/-! ### Helper lemmas: construction-time validation -/

theorem mkCard_isSome_iff {t : List Char} : (mkCard t).isSome ↔ validCode t := by
  rcases t with _ | ⟨f, _ | ⟨su, _ | ⟨x, rest⟩⟩⟩
  · simp [mkCard, validCode]
  · simp [mkCard, validCode]
  · by_cases hf : f.toUpper ∈ FACE_VALUES
    · by_cases hs : su.toUpper ∈ SUIT_VALUES
      · simp only [mkCard, if_pos hf, if_pos hs]
        exact iff_of_true rfl ⟨f, su, rfl, hf, hs⟩
      · simp only [mkCard, if_pos hf, if_neg hs]
        constructor
        · intro h; exact absurd h (by simp)
        · rintro ⟨f2, s2, he, _, hs2⟩
          injection he with h1 h2
          injection h2 with h2a _
          subst h1; subst h2a
          exact absurd hs2 hs
    · simp only [mkCard, if_neg hf]
      constructor
      · intro h; exact absurd h (by simp)
      · rintro ⟨f2, s2, he, hf2, _⟩
        injection he with h1 h2
        subst h1
        exact absurd hf2 hf
  · simp [mkCard, validCode]

theorem mkCards_isSome_iff {ts : List (List Char)} :
    (mkCards ts).isSome ↔ ∀ t ∈ ts, (mkCard t).isSome := by
  induction ts with
  | nil => simp [mkCards]
  | cons t ts ih =>
    cases hc : mkCard t with
    | none => simp [mkCards, hc]
    | some c => simp [mkCards, hc, ih]

theorem mkHandProcessor_isSome_iff {s : String} :
    (mkHandProcessor s).isSome ↔ validInput s := by
  rw [mkHandProcessor, validInput]
  by_cases h10 : (tokenize s).length = 10
  · by_cases hnd : (tokenize s).Nodup
    · simp only [h10, hnd, if_true, true_and]
      have hmap : ∀ o : Option (List Card),
          (o.map (fun cs => (⟨cs⟩ : HandProcessor))).isSome = o.isSome := by
        intro o; cases o <;> rfl
      rw [hmap, mkCards_isSome_iff]
      constructor
      · intro h t ht; exact mkCard_isSome_iff.mp (h t ht)
      · intro h t ht; exact mkCard_isSome_iff.mpr (h t ht)
    · simp [h10, hnd]
  · simp [h10]

/-! ### Claim theorems -/

/-- C1: for every valid 10-card input, `best_hand_possible` returns exactly
one of the 9 literal category names, namely the name of the first category in
precedence order whose feasibility check holds, with `Highest Card` returned
when no other check holds. -/
theorem claim_C1 (s : String) (p : HandProcessor) (h : mkHandProcessor s = some p) :
    best_hand_possibleE p = some (firstFeasibleName p) ∧ firstFeasibleName p ∈ categoryNames := by
  obtain ⟨b1, h1⟩ := Option.isSome_iff_exists.mp (straight_flush_isSome p)
  obtain ⟨b2, h2⟩ := Option.isSome_iff_exists.mp (times_of_a_kind_isSome p 4)
  obtain ⟨b3, h3⟩ := Option.isSome_iff_exists.mp (full_house_isSome p)
  obtain ⟨b4, h4⟩ := Option.isSome_iff_exists.mp (flush_isSome p)
  obtain ⟨b5, h5⟩ := Option.isSome_iff_exists.mp (straight_isSome p)
  obtain ⟨b6, h6⟩ := Option.isSome_iff_exists.mp (times_of_a_kind_isSome p 3)
  obtain ⟨b7, h7⟩ := Option.isSome_iff_exists.mp (pair_possibility_isSome p 2)
  obtain ⟨b8, h8⟩ := Option.isSome_iff_exists.mp (pair_possibility_isSome p 1)
  rw [best_hand_possibleE, firstFeasibleName, category_results, four_of_a_kind_possibleE,
    three_of_a_kind_possibleE, two_pair_possibilityE, one_pair_possibilityE,
    h1, h2, h3, h4, h5, h6, h7, h8]
  cases b1 <;> cases b2 <;> cases b3 <;> cases b4 <;> cases b5 <;> cases b6 <;>
    cases b7 <;> cases b8 <;> exact ⟨rfl, by decide⟩

/-- C1 witness: the theorem instantiated at the concrete input
`TH JH QC QD QS QH KH AH 2S 6S`. -/
theorem claim_C1_witness :
    best_hand_possibleE hp3 = some (firstFeasibleName hp3) ∧
    firstFeasibleName hp3 ∈ categoryNames :=
  claim_C1 "TH JH QC QD QS QH KH AH 2S 6S" hp3 (by decide)

/-- C2: for every required set of cards drawn from the 10 input cards,
`draw_possibility` returns True iff the farthest required deck position is at
most the discard budget `5 - |requiredFromHand|`; equality is drawable,
exceeding the budget by one is not. -/
theorem claim_C2 (p : HandProcessor) (r : List Card)
    (h : ∀ c ∈ r, c ∈ p.hand_n_deck_cards) :
    (draw_possibility p r = some true ↔
      (farthestSpec p r : Int) ≤ discardBudgetSpec p r) ∧
    ((farthestSpec p r : Int) = discardBudgetSpec p r →
      draw_possibility p r = some true) ∧
    ((farthestSpec p r : Int) = discardBudgetSpec p r + 1 →
      draw_possibility p r = some false) := by
  refine ⟨draw_eq_true_iff h, ?hb1, ?hb2⟩
  · intro he
    exact (draw_eq_true_iff h).mpr (le_of_eq he)
  · intro he
    rw [draw_possibility_eq h, he]
    have hgt : (discardBudgetSpec p r + 1 : Int) > discardBudgetSpec p r := by omega
    rw [if_pos hgt]

/-- C2 witness: the queen group of the input `TH JH QC QD QS QH KH AH 2S 6S`
has farthest deck position 1 and discard budget 2. -/
theorem claim_C2_witness :
    (draw_possibility hp3 [⟨'Q','C'⟩, ⟨'Q','D'⟩, ⟨'Q','S'⟩, ⟨'Q','H'⟩] = some true ↔
      (farthestSpec hp3 [⟨'Q','C'⟩, ⟨'Q','D'⟩, ⟨'Q','S'⟩, ⟨'Q','H'⟩] : Int) ≤
        discardBudgetSpec hp3 [⟨'Q','C'⟩, ⟨'Q','D'⟩, ⟨'Q','S'⟩, ⟨'Q','H'⟩]) ∧
    ((farthestSpec hp3 [⟨'Q','C'⟩, ⟨'Q','D'⟩, ⟨'Q','S'⟩, ⟨'Q','H'⟩] : Int) =
        discardBudgetSpec hp3 [⟨'Q','C'⟩, ⟨'Q','D'⟩, ⟨'Q','S'⟩, ⟨'Q','H'⟩] →
      draw_possibility hp3 [⟨'Q','C'⟩, ⟨'Q','D'⟩, ⟨'Q','S'⟩, ⟨'Q','H'⟩] = some true) ∧
    ((farthestSpec hp3 [⟨'Q','C'⟩, ⟨'Q','D'⟩, ⟨'Q','S'⟩, ⟨'Q','H'⟩] : Int) =
        discardBudgetSpec hp3 [⟨'Q','C'⟩, ⟨'Q','D'⟩, ⟨'Q','S'⟩, ⟨'Q','H'⟩] + 1 →
      draw_possibility hp3 [⟨'Q','C'⟩, ⟨'Q','D'⟩, ⟨'Q','S'⟩, ⟨'Q','H'⟩] = some false) :=
  claim_C2 hp3 [⟨'Q','C'⟩, ⟨'Q','D'⟩, ⟨'Q','S'⟩, ⟨'Q','H'⟩] (by decide)

/-- C3: on the input `TH JH QC QD QS QH KH AH 2S 6S` the evaluator returns
`Four Of A Kind`: four of a kind is achievable and no category above it
(straight flush) is feasible. -/
theorem claim_C3 :
    mkHandProcessor "TH JH QC QD QS QH KH AH 2S 6S" = some hp3 ∧
    best_hand_possibleE hp3 = some "Four Of A Kind" ∧
    straight_flush_possibleE hp3 = some false ∧
    four_of_a_kind_possibleE hp3 = some true :=
  ⟨by decide, by decide, by decide, by decide⟩

/-- C4: the claim says `full_house_possibility` succeeds whenever SOME
3-subset of a 3-or-4 face group and some 2-subset of a different group are
jointly drawable, all 3-subsets being enumerated.  The code does not
enumerate them: its first inner loop discards every test result and its
leaked loop variable fixes the last 3-window.  On the input
`QC QD QS KH KS 2H 3H 4D 5D QH` the drawable combination
`{QC,QD,QS} ∪ {KH,KS}` exists (so the claimed predicate holds) yet the
function returns False. -/
theorem claim_C4 :
    mkHandProcessor "QC QD QS KH KS 2H 3H 4D 5D QH" = some hp4 ∧
    ([⟨'Q','C'⟩, ⟨'Q','D'⟩, ⟨'Q','S'⟩, ⟨'Q','H'⟩] : List Card) ∈
      (get_same_face_cards hp4.hand_n_deck_cards).map Prod.snd ∧
    ([⟨'K','H'⟩, ⟨'K','S'⟩] : List Card) ∈
      (get_same_face_cards hp4.hand_n_deck_cards).map Prod.snd ∧
    draw_possibility hp4 [⟨'Q','C'⟩, ⟨'Q','D'⟩, ⟨'Q','S'⟩, ⟨'K','H'⟩, ⟨'K','S'⟩] = some true ∧
    full_house_possibilityE hp4 = some false :=
  ⟨by decide, by decide, by decide, by decide, by decide⟩

/-- C5 counterexample: on the input `2H 3H 5H 2C 3C 6H 7H 2D 3D 4H` the code
returns True for the flush check, but no length-5 window of the heart group
taken in rank order is drawable, refuting the claim's `rank order` wording. -/
theorem claim_C5_counterexample :
    mkHandProcessor "2H 3H 5H 2C 3C 6H 7H 2D 3D 4H" = some hp5 ∧
    flush_possibilityE hp5 = some true ∧
    flush_rank_order_spec hp5 = false :=
  ⟨by decide, by decide, by decide⟩

/-- C5 (amended): `flush_possibility` returns True iff some suit group of the
10 cards has at least 5 cards and some length-5 contiguous window of that
group, taken in order of appearance among the 10 cards (insertion order, not
rank order), is drawable. -/
theorem claim_C5 (p : HandProcessor) :
    flush_possibilityE p = some true ↔
    ∃ g ∈ get_same_suit_cards p.hand_n_deck_cards, 5 ≤ g.2.length ∧
      ∃ w ∈ windows 5 g.2, draw_possibility p w = some true := by
  rw [flush_possibilityE]
  rw [firstSuccess_eq_true_iff ?hall]
  case hall =>
    intro g hg
    by_cases h5 : 5 ≤ g.2.length
    · rw [if_pos h5]
      exact firstSuccess_isSome (fun w hw =>
        draw_isSome (fun c hc => get_same_suit_cards_sub hg c (windows_sub hw c hc)))
    · rw [if_neg h5]; rfl
  constructor
  · rintro ⟨g, hg, hgt⟩
    by_cases h5 : 5 ≤ g.2.length
    · rw [if_pos h5] at hgt
      rw [firstSuccess_eq_true_iff (fun w hw =>
        draw_isSome (fun c hc => get_same_suit_cards_sub hg c (windows_sub hw c hc)))] at hgt
      exact ⟨g, hg, h5, hgt⟩
    · rw [if_neg h5] at hgt
      exact absurd hgt (by simp)
  · rintro ⟨g, hg, h5, w, hw, hd⟩
    refine ⟨g, hg, ?hgoal⟩
    rw [if_pos h5]
    rw [firstSuccess_eq_true_iff (fun w2 hw2 =>
      draw_isSome (fun c hc => get_same_suit_cards_sub hg c (windows_sub hw2 c hc)))]
    exact ⟨w, hw, hd⟩

/-- C6: construction fails exactly when the input violates a precondition
(wrong token length, invalid face or suit symbol, wrong token count,
duplicate cards), and on an input that constructs successfully
`best_hand_possible` raises no error and returns a result. -/
theorem claim_C6 (s : String) :
    ((mkHandProcessor s).isSome ↔ validInput s) ∧
    (∀ p : HandProcessor, mkHandProcessor s = some p → (best_hand_possibleE p).isSome) :=
  ⟨mkHandProcessor_isSome_iff, fun p _ => best_hand_isSome p⟩

/-- C6 witness: the theorem instantiated at the valid input
`TH JH QC QD QS QH KH AH 2S 6S`. -/
theorem claim_C6_witness :
    ((mkHandProcessor "TH JH QC QD QS QH KH AH 2S 6S").isSome ↔
      validInput "TH JH QC QD QS QH KH AH 2S 6S") ∧
    (best_hand_possibleE hp3).isSome :=
  ⟨(claim_C6 "TH JH QC QD QS QH KH AH 2S 6S").1,
   (claim_C6 "TH JH QC QD QS QH KH AH 2S 6S").2 hp3 (by decide)⟩

/-- C7: `draw_possibility` is monotonic with respect to subset: if a required
set drawn from the 10 input cards is drawable, so is every subset of it, the
hand/deck partition held fixed. -/
theorem claim_C7 (p : HandProcessor) (r rp : List Card)
    (h0 : ∀ c ∈ r, c ∈ p.hand_n_deck_cards) (h1 : r.Nodup)
    (h2 : rp ⊆ r) (h3 : rp.Nodup)
    (h : draw_possibility p r = some true) : draw_possibility p rp = some true := by
  have h0p : ∀ c ∈ rp, c ∈ p.hand_n_deck_cards := fun c hc => h0 c (h2 hc)
  rw [draw_eq_true_iff h0] at h
  rw [draw_eq_true_iff h0p]
  have hfar : farthestSpec p rp ≤ farthestSpec p r := by
    simp only [farthestSpec]
    refine foldl_max_le (Nat.zero_le _) ?hx
    intro x hx
    rw [List.mem_map] at hx
    obtain ⟨c, hc, rfl⟩ := hx
    rw [List.mem_filter] at hc
    refine le_foldl_max ?hmem
    rw [List.mem_map]
    exact ⟨c, List.mem_filter.mpr ⟨h2 hc.1, hc.2⟩, rfl⟩
  have hbud : (rp.filter (fun c => decide (c ∈ hand_cards p))).length ≤
      (r.filter (fun c => decide (c ∈ hand_cards p))).length := by
    refine List.Subperm.length_le ?hsp
    refine List.subperm_of_subset (h3.filter _) ?hss
    intro c hc
    rw [List.mem_filter] at hc ⊢
    exact ⟨h2 hc.1, hc.2⟩
  rw [discardBudgetSpec] at h ⊢
  omega

/-- C7 witness: a drawable queen four-of-a-kind set and its two-card subset
on the input `TH JH QC QD QS QH KH AH 2S 6S`. -/
theorem claim_C7_witness :
    draw_possibility hp3 [⟨'Q','C'⟩, ⟨'Q','D'⟩] = some true :=
  claim_C7 hp3 [⟨'Q','C'⟩, ⟨'Q','D'⟩, ⟨'Q','S'⟩, ⟨'Q','H'⟩] [⟨'Q','C'⟩, ⟨'Q','D'⟩]
    (by decide) (by decide) (by rw [List.subset_def]; decide) (by decide) (by decide)

/-- C8: `get_consecutive_cards` partitions the input (its runs flatten to a
permutation of the input cards) and within each run no two cards share a rank
and the ranks form a contiguous ascending sequence with no gaps (the ranks
are a permutation of `a, a+1, ..., a+len-1` for some `a`). -/
theorem claim_C8 (cards : List Card) :
    (get_consecutive_cards cards).flatten.Perm cards ∧
    ∀ run ∈ get_consecutive_cards cards,
      ∃ a, (run.map rank).Perm (List.range' a run.length) :=
  ⟨consecutive_flatten_perm cards, consecutive_runs_good cards⟩

/-- C9: card validation is case-insensitive but equality is case-sensitive:
`qh` constructs successfully with the same rank and classification as `QH`,
yet the two cards compare unequal, and grouping and the duplicate check treat
them as distinct. -/
theorem claim_C9 :
    mkCard ['q', 'h'] = some ⟨'q', 'h'⟩ ∧
    rank ⟨'q', 'h'⟩ = rank ⟨'Q', 'H'⟩ ∧
    is_face_card ⟨'q', 'h'⟩ = is_face_card ⟨'Q', 'H'⟩ ∧
    is_number_card ⟨'q', 'h'⟩ = is_number_card ⟨'Q', 'H'⟩ ∧
    Card.mk 'q' 'h' ≠ Card.mk 'Q' 'H' ∧
    get_same_face_cards [⟨'Q', 'H'⟩, ⟨'q', 'h'⟩] =
      [('Q', [⟨'Q', 'H'⟩]), ('q', [⟨'q', 'h'⟩])] ∧
    (mkHandProcessor "QH qh 2C 3C 4C 5C 6C 7C 8C 9C").isSome :=
  ⟨by decide, by decide, by decide, by decide, by decide, by decide, by decide⟩

/-- C10: under the precondition that every required card is one of the 10
input cards, every required card not found in the 5 hand cards is found in
the 5 deck cards, so `draw_possibility` never raises (the deck-position
lookup always succeeds). -/
theorem claim_C10 (p : HandProcessor) (r : List Card)
    (h : ∀ c ∈ r, c ∈ p.hand_n_deck_cards) :
    (∀ c ∈ r, c ∉ hand_cards p → c ∈ deck_cards p) ∧ (draw_possibility p r).isSome :=
  ⟨fun c hc hnh => mem_deck_of_not_hand (h c hc) hnh, draw_isSome h⟩

/-- C10 witness: the theorem instantiated at a required set containing a hand
card and a deck card of the input `TH JH QC QD QS QH KH AH 2S 6S`. -/
theorem claim_C10_witness :
    (∀ c ∈ ([⟨'Q','S'⟩, ⟨'Q','H'⟩] : List Card),
      c ∉ hand_cards hp3 → c ∈ deck_cards hp3) ∧
    (draw_possibility hp3 [⟨'Q','S'⟩, ⟨'Q','H'⟩]).isSome :=
  claim_C10 hp3 [⟨'Q','S'⟩, ⟨'Q','H'⟩] (by decide)
